import Mathlib

/-!
Verification of the incremental medical-image preprocessing pipeline
(src/main.py): a shallow embedding of the path sanitizer, the per-stage
skip gates, the stage-1 per-directory loop, and the step-4 identifier
registry (load / reconcile / persist), with theorems about the spec's
claims on these components.
-/

namespace DocmNifti

/-! ## String primitives (embedding of the Python string operations used) -/

/-- Characters removed from both ends by the Python call strip with
argument "-_ ." in sanitize_name (src/main.py line 104). -/
def isStripChar (c : Char) : Bool :=
  c = '-' || c = '_' || c = ' ' || c = '.'

/-- A character inside the 7-bit range kept by the regular expression
sub removing every occurrence of a character outside \x00-\x7F. -/
def isAsciiChar (c : Char) : Bool := c.toNat ≤ 127

/-- Printable 7-bit ASCII (0x20 to 0x7E); used to state claim C8,
which speaks about the printable range. -/
def isPrintableAscii (c : Char) : Bool := 32 ≤ c.toNat && c.toNat ≤ 126

/-- Embedding of re.sub removing every character outside the 7-bit range
(src/main.py line 104, first half). -/
def stripNonAscii (s : String) : String := String.mk (s.data.filter isAsciiChar)

/-- Embedding of the Python strip with argument "-_ ." : removes any of
the four characters from both ends (src/main.py line 104, second half). -/
def stripEnds (s : String) : String :=
  String.mk (((s.data.dropWhile isStripChar).reverse.dropWhile isStripChar).reverse)

/-- sanitize_name from src/main.py lines 103-105. -/
def sanitize_name (name : String) : String :=
  let clean := stripEnds (stripNonAscii name)
  if clean = "" then "Unknown_ID" else clean

/-- ASCII lower-casing of one character, as Python lower acts on the
ASCII names compared against the literal suffixes ".dcm" / ".ima". -/
def lowerChar (c : Char) : Char :=
  if 65 ≤ c.toNat && c.toNat ≤ 90 then Char.ofNat (c.toNat + 32) else c

/-- Embedding of the Python lower call on a file name. -/
def strToLower (s : String) : String := String.mk (s.data.map lowerChar)

/-- Embedding of the Python endswith test. -/
def strEndsWith (s suffix : String) : Bool := suffix.data.isSuffixOf s.data

/-- Strict code-point lexicographic comparison on character lists: the
order Python uses when sorting the path strings handled here. -/
def strLtB : List Char → List Char → Bool
  | [], [] => false
  | [], _ :: _ => true
  | _ :: _, [] => false
  | a :: as, b :: bs =>
    if a.toNat < b.toNat then true
    else if b.toNat < a.toNat then false
    else strLtB as bs

/-- Non-strict form of the code-point order on strings. -/
def strLe (a b : String) : Bool := !(strLtB b.data a.data)

/-- Ordered insertion into an already handled tail: the inner step of a
stable insertion sort. -/
def ordIns (le : α → α → Bool) (a : α) : List α → List α
  | [] => [a]
  | b :: t => if le a b then a :: b :: t else b :: ordIns le a t

/-- A stable insertion sort: the embedding of the Python sorted builtin
and the list sort call, which are stable sorts. -/
def insSort (le : α → α → Bool) : List α → List α
  | [] => []
  | a :: t => ordIns le a (insSort le t)

/-- Boolean check that every adjacent pair of a list respects le. -/
def chainLeB (le : α → α → Bool) : List α → Bool
  | [] => true
  | [_] => true
  | a :: b :: rest => le a b && chainLeB le (b :: rest)

/-! ## Stage 1: per-directory unzip loop (src/main.py lines 112-141) -/

/-- Embedding of the extension component of os.path.splitext for a bare
file name: the part from the last dot on, unless every character before
that dot is itself a dot (then there is no extension). -/
def splitExtTail (cs : List Char) : List Char :=
  let revKeep := cs.reverse.takeWhile (fun c => c ≠ '.')
  if revKeep.length = cs.length then []
  else
    let root := cs.take (cs.length - revKeep.length - 1)
    if root.all (fun c => c = '.') then []
    else cs.drop (cs.length - revKeep.length - 1)

/-- Recognition of a raw study file by suffix, src/main.py line 118. -/
def isDcmFile (f : String) : Bool :=
  strEndsWith (strToLower f) ".dcm" || strEndsWith (strToLower f) ".ima"

/-- Destination file name computed for one source file in step_1_unzip
(src/main.py lines 126-127): sanitize, then append the original
extension when the sanitized name does not already end in ".dcm". -/
def step1CleanFile (f : String) : String :=
  let clean_f := sanitize_name f
  if strEndsWith (strToLower clean_f) ".dcm" then clean_f
  else clean_f ++ String.mk (splitExtTail f.data)

/-- The stage-1 skip gate (src/main.py line 132): skip exactly when the
overwrite flag is off and the destination file already exists. -/
def step1Skips (overwrite : Bool) (dstExists : Bool) : Bool :=
  !overwrite && dstExists

/-- The file loop of step_1_unzip over one directory (src/main.py lines
125-140). The disk is the list of destination names already present in
the target directory; a processed file is modelled as writing its
destination (the normal outcome of the dcmdjpeg call or the copy
fallback). Returns the final disk and the processed source files in
visit order. -/
def step1Loop (overwrite : Bool) : List String → List String → List String × List String
  | disk, [] => (disk, [])
  | disk, f :: rest =>
    let dst := step1CleanFile f
    if step1Skips overwrite (disk.contains dst) then
      step1Loop overwrite disk rest
    else
      let r := step1Loop overwrite (dst :: disk) rest
      (r.1, f :: r.2)

/-- One directory of step_1_unzip: filter the walked file list down to
recognized study files (line 118), then run the incremental loop. -/
def step1Dir (overwrite : Bool) (disk files : List String) : List String × List String :=
  step1Loop overwrite disk (files.filter isDcmFile)

/-! ## Stage 2 and stage 3 gates (src/main.py lines 144-186) -/

/-- A stage-2 unit: one directory recognized as holding study files,
with its would-be output directory state: whether the output directory
exists, and the file names inside it (the candidates of the non
recursive glob for *.nii.gz). -/
structure Dir2 where
  outDirExists : Bool
  outFiles : List String
deriving DecidableEq, Repr

/-- The stage-2 skip gate (src/main.py line 163): skip exactly when the
overwrite flag is off, the output directory exists, and it contains at
least one .nii.gz file. -/
def step2Skips (overwrite : Bool) (u : Dir2) : Bool :=
  !overwrite && u.outDirExists &&
    !(u.outFiles.filter (fun f => strEndsWith f ".nii.gz")).isEmpty

/-- step_2_convert's per-unit decision over a walked list of units,
keeping those that are processed (src/main.py lines 150-165). -/
def step2Run (overwrite : Bool) (units : List (String × Dir2)) : List String :=
  (units.filter (fun u => !(step2Skips overwrite u.2))).map (fun u => u.1)

/-- The stage-3 skip gate (src/main.py lines 183-184): the target state
is none when the target file is missing, some size otherwise; skip
exactly when the overwrite flag is off, the file exists, and its size
strictly exceeds 1024 bytes. -/
def step3Skips (overwrite : Bool) (target : Option Nat) : Bool :=
  !overwrite &&
    (match target with
     | none => false
     | some sz => decide (sz > 1024))

/-- step_3_clip's selection of files to process (src/main.py lines
176-185): each unit is a source path with its target state. -/
def step3Run (overwrite : Bool) (units : List (String × Option Nat)) : List String :=
  (units.filter (fun u => !(step3Skips overwrite u.2))).map (fun u => u.1)

/-- The sorted recursive scan feeding stage 3 and stage 4 (src/main.py
lines 173 and 247): Python sorted over the glob result, a stable sort
in the code-point order. -/
def scanSorted (globbed : List String) : List String :=
  insSort strLe globbed

/-! ## Stage 4: identity registry (src/main.py lines 218-296) -/

/-- One row of the persisted table name_mapping.csv: assigned name,
relative source path, full source path (src/main.py line 293). -/
structure Row where
  newName : String
  relPath : String
  fullPath : String
deriving DecidableEq, Repr

/-- An ASCII digit, as matched by the digit class of the identifier
pattern on the names produced here. -/
def isDigitChar (c : Char) : Bool := 48 ≤ c.toNat && c.toNat ≤ 57

/-- Value of one ASCII digit. -/
def digitVal (c : Char) : Nat := c.toNat - 48

/-- Value of a digit run, most significant first. -/
def digitsValue (ds : List Char) : Nat := ds.foldl (fun a c => 10 * a + digitVal c) 0

/-- Attempt of the identifier pattern at the head of the character list:
the literal "case_" followed by at least one digit, capturing the
maximal digit run. -/
def caseIdAt (cs : List Char) : Option Nat :=
  match cs with
  | 'c' :: 'a' :: 's' :: 'e' :: '_' :: rest =>
    if (rest.takeWhile isDigitChar).isEmpty then none
    else some (digitsValue (rest.takeWhile isDigitChar))
  | _ => none

/-- Embedding of the regular-expression search for case_ followed by
digits on an assigned name (src/main.py line 238): the leftmost match
wins. -/
def findCaseId : List Char → Option Nat
  | [] => none
  | c :: rest =>
    match caseIdAt (c :: rest) with
    | some n => some n
    | none => findCaseId rest

/-- Decimal digit character for a value below ten. -/
def digitChar (d : Nat) : Char :=
  match d with
  | 0 => '0' | 1 => '1' | 2 => '2' | 3 => '3' | 4 => '4'
  | 5 => '5' | 6 => '6' | 7 => '7' | 8 => '8' | _ => '9'

/-- Fuel-driven computation of the decimal digits, most significant
first; the fuel only bounds the recursion depth and any fuel above the
number suffices. -/
def natDigitsAux : Nat → Nat → List Char
  | 0, _ => []
  | fuel + 1, n =>
    if n < 10 then [digitChar n]
    else natDigitsAux fuel (n / 10) ++ [digitChar (n % 10)]

/-- Decimal digits of a natural number, most significant first
(the digits the Python format specifier 03d emits before padding). -/
def natDigits (n : Nat) : List Char := natDigitsAux (n + 1) n

/-- Zero padding to width three, as the format specifier 03d does. -/
def pad3 (ds : List Char) : List Char := List.replicate (3 - ds.length) '0' ++ ds

/-- The assigned file name for identifier n (src/main.py line 267). -/
def fmtCaseName (n : Nat) : String :=
  String.mk ("case_".data ++ pad3 (natDigits n) ++ ".nii.gz".data)

/-- Pointwise update of the loaded map, as the Python dict assignment
on line 235 behaves under lookup. -/
def emUpdate (em : String → Option String) (k v : String) : String → Option String :=
  fun x => if x = k then some v else em x

/-- The row loop of the table load (src/main.py lines 234-241): every
row enters the map keyed by its relative path; the running maximum
advances only when the identifier search succeeds on the assigned name
and yields something larger. -/
def loadRows : List Row → (String → Option String) → Nat → (String → Option String) × Nat
  | [], em, mx => (em, mx)
  | r :: rest, em, mx =>
    loadRows rest (emUpdate em r.relPath r.newName)
      (match findCaseId r.newName.data with
       | some n => if n > mx then n else mx
       | none => mx)

/-- Loading the persisted table (src/main.py lines 227-244): parsed only
when present and the overwrite flag is off; an absent or unreadable
table (modelled as none) yields the empty map and identifier 0, with a
logged warning in the source. -/
def loadRegistry (overwrite : Bool) (table : Option (List Row)) :
    (String → Option String) × Nat :=
  match table, overwrite with
  | some rows, false => loadRows rows (fun _ => none) 0
  | _, _ => (fun _ => none, 0)

/-- Result of the reconciliation scan: the full mapping in scan order,
the units to resample as (source path, assigned name), and the final
maximum identifier. -/
structure Recon where
  mapping : List Row
  toProcess : List (String × String)
  maxId : Nat
deriving DecidableEq, Repr

/-- The reconciliation loop of step_4_resample (src/main.py lines
252-269). Items are (full path, relative path) pairs in scan order;
dstFiles lists the file names present in the destination directory. A
known relative path (overwrite off) keeps its assigned name and is
queued for processing only when its output file is missing; any other
item is allocated the next identifier. -/
def reconcile (overwrite : Bool) (em : String → Option String) (dstFiles : List String) :
    List (String × String) → Nat → Recon
  | [], mx => ⟨[], [], mx⟩
  | (img, rel) :: rest, mx =>
    match em rel, overwrite with
    | some name, false =>
      let r := reconcile overwrite em dstFiles rest mx
      ⟨⟨name, rel, img⟩ :: r.mapping,
       (if dstFiles.contains name then [] else [(img, name)]) ++ r.toProcess,
       r.maxId⟩
    | _, _ =>
      let nn := fmtCaseName (mx + 1)
      let r := reconcile overwrite em dstFiles rest (mx + 1)
      ⟨⟨nn, rel, img⟩ :: r.mapping, (img, nn) :: r.toProcess, r.maxId⟩

/-- The whole in-memory part of step_4_resample: load the table, then
reconcile the scanned items against it. -/
def step4Run (overwrite : Bool) (table : Option (List Row)) (dstFiles : List String)
    (items : List (String × String)) : Recon :=
  let l := loadRegistry overwrite table
  reconcile overwrite l.1 dstFiles items l.2

/-- Ordering of rows by assigned name used for the final sort
(src/main.py line 289). -/
def rowLe (a b : Row) : Bool := strLe a.newName b.newName

/-- The rows written to the persisted table: the complete mapping,
sorted by assigned name (src/main.py lines 289-294). -/
def persistRows (mapping : List Row) : List Row := insSort rowLe mapping

/-! ## The persist write, as a trace of file-system operations -/

/-- File-system operations the write of the table can perform. -/
inductive FsOp where
  | openTrunc : String → FsOp
  | writeRow : String → List String → FsOp
  | rename : String → String → FsOp
deriving DecidableEq, Repr

/-- The header row written first (src/main.py line 293). -/
def headerRow : List String := ["New Name", "Rel Path", "Full Path"]

/-- The write of the persisted table (src/main.py lines 291-294): open
the canonical path for writing (truncating it), write the header, then
every row of the sorted complete mapping. -/
def persistTrace (csvPath : String) (mapping : List Row) : List FsOp :=
  FsOp.openTrunc csvPath :: FsOp.writeRow csvPath headerRow ::
    (persistRows mapping).map (fun r => FsOp.writeRow csvPath [r.newName, r.relPath, r.fullPath])

/-- Modelled from the spec: the write-to-temp-then-rename discipline the
spec requires of the registry write. A trace is atomic for a canonical
path when all its operations address one temporary path distinct from
the canonical one, except a final rename of that temporary onto the
canonical path. -/
def atomicTempRenameB (trace : List FsOp) (canonical : String) : Bool :=
  match trace.getLast? with
  | some (FsOp.rename tmp c) =>
    c == canonical && tmp != canonical &&
      trace.dropLast.all (fun op =>
        match op with
        | FsOp.openTrunc p => p == tmp
        | FsOp.writeRow p _ => p == tmp
        | FsOp.rename _ _ => false)
  | _ => false

/-- Whether a file-system operation addresses exactly the given path
directly (no temporary, no rename). -/
def opDirectB (op : FsOp) (path : String) : Bool :=
  match op with
  | FsOp.openTrunc p => p == path
  | FsOp.writeRow p _ => p == path
  | FsOp.rename _ _ => false

/-- The mapping a run produces when every scanned item is a fresh
allocation: the i-th item (1-based) after the start identifier mx gets
the name for identifier mx + i. -/
def freshMapping (mx : Nat) : List (String × String) → List Row
  | [] => []
  | (img, rel) :: rest => ⟨fmtCaseName (mx + 1), rel, img⟩ :: freshMapping (mx + 1) rest

/-- The loaded map assigns to the items, in scan order, exactly the
names of identifiers mx+1, mx+2, ... : the shape a reloaded fresh run
has. -/
def relNamesFrom (em : String → Option String) : Nat → List (String × String) → Prop
  | _, [] => True
  | mx, (_, rel) :: rest => em rel = some (fmtCaseName (mx + 1)) ∧ relNamesFrom em (mx + 1) rest

/-! ## Helper lemmas: sanitizer -/

theorem mem_of_mem_stripEnds {c : Char} {s : String} (h : c ∈ (stripEnds s).data) :
    c ∈ s.data := by
  have h1 : c ∈ ((s.data.dropWhile isStripChar).reverse.dropWhile isStripChar).reverse := h
  have h2 := List.mem_reverse.mp h1
  have h3 := (List.dropWhile_sublist isStripChar).mem h2
  have h4 := List.mem_reverse.mp h3
  exact (List.dropWhile_sublist isStripChar).mem h4

theorem ascii_of_mem_stripNonAscii {c : Char} {s : String}
    (h : c ∈ (stripNonAscii s).data) : isAsciiChar c = true :=
  List.of_mem_filter h

/-! ## Helper lemmas: sorting -/

theorem strLtB_asymm : ∀ as bs : List Char, strLtB as bs = true → strLtB bs as = false := by
  intro as
  induction as with
  | nil =>
    intro bs h
    cases bs with
    | nil => simp [strLtB] at h
    | cons b t => rfl
  | cons a as ih =>
    intro bs h
    cases bs with
    | nil => simp [strLtB] at h
    | cons b t =>
      rcases Nat.lt_trichotomy a.toNat b.toNat with h1 | h1 | h1
      · simp only [strLtB]
        rw [if_neg (by omega), if_pos h1]
      · simp only [strLtB] at h
        rw [if_neg (by omega), if_neg (by omega)] at h
        simp only [strLtB]
        rw [if_neg (by omega), if_neg (by omega)]
        exact ih t h
      · simp only [strLtB] at h
        rw [if_neg (by omega), if_pos h1] at h
        exact absurd h (by simp)

theorem strLe_of_not_strLe {a b : String} (h : strLe a b = false) : strLe b a = true := by
  unfold strLe at h ⊢
  have h1 : strLtB b.data a.data = true := by
    cases hx : strLtB b.data a.data with
    | true => rfl
    | false => rw [hx] at h; simp at h
  rw [strLtB_asymm _ _ h1]
  rfl

theorem chainLeB_ordIns {α : Type} {le : α → α → Bool}
    (htot : ∀ a b, le a b = false → le b a = true) (a : α) :
    ∀ l, chainLeB le l = true → chainLeB le (ordIns le a l) = true := by
  intro l
  induction l with
  | nil => intro _; rfl
  | cons b t ih =>
    intro hc
    cases hab : le a b with
    | true => simp [ordIns, hab, chainLeB, hc]
    | false =>
      have hba := htot _ _ hab
      cases t with
      | nil => simp [ordIns, hab, chainLeB, hba]
      | cons c t2 =>
        simp only [chainLeB, Bool.and_eq_true] at hc
        have hrec := ih hc.2
        cases hac : le a c with
        | true => simp [ordIns, hab, hac, chainLeB, hba, hc.2]
        | false =>
          simp only [ordIns, hab, hac] at hrec ⊢
          simp only [Bool.false_eq_true, if_false] at hrec ⊢
          simp only [chainLeB, Bool.and_eq_true] at hrec ⊢
          exact ⟨hc.1, hrec⟩

theorem chainLeB_insSort {α : Type} {le : α → α → Bool}
    (htot : ∀ a b, le a b = false → le b a = true) :
    ∀ l, chainLeB le (insSort le l) = true := by
  intro l
  induction l with
  | nil => rfl
  | cons a t ih => exact chainLeB_ordIns htot a _ ih

theorem ordIns_perm {α : Type} (le : α → α → Bool) (a : α) :
    ∀ l, (ordIns le a l).Perm (a :: l) := by
  intro l
  induction l with
  | nil => exact List.Perm.refl _
  | cons b t ih =>
    cases h : le a b with
    | true =>
      simp only [ordIns, h, if_pos rfl]
      exact List.Perm.refl _
    | false =>
      simp only [ordIns, h, Bool.false_eq_true, if_false]
      exact (ih.cons b).trans (List.Perm.swap a b t)

theorem insSort_perm {α : Type} (le : α → α → Bool) :
    ∀ l, (insSort le l).Perm l := by
  intro l
  induction l with
  | nil => exact List.Perm.refl _
  | cons a t ih => exact (ordIns_perm le a _).trans (ih.cons a)

theorem step1Loop_sublist (ow : Bool) :
    ∀ (fs disk : List String), ((step1Loop ow disk fs).2).Sublist fs := by
  intro fs
  induction fs with
  | nil => intro disk; simp [step1Loop]
  | cons f rest ih =>
    intro disk
    simp only [step1Loop]
    cases h : step1Skips ow (disk.contains (step1CleanFile f)) with
    | true =>
      simp only [h, if_pos rfl]
      exact (ih disk).trans (List.sublist_cons_self f rest)
    | false =>
      simp only [h, Bool.false_eq_true, if_false]
      exact (ih (step1CleanFile f :: disk)).cons₂ f

theorem rowLe_total (a b : Row) (h : rowLe a b = false) : rowLe b a = true :=
  strLe_of_not_strLe h

/-! ## Helper lemmas: decimal formatting and the identifier search -/

theorem digitChar_spec {d : Nat} (h : d < 10) :
    isDigitChar (digitChar d) = true ∧ digitVal (digitChar d) = d := by
  interval_cases d <;> exact ⟨by decide, by decide⟩

theorem natDigitsAux_ne_nil (fuel n : Nat) (h : 0 < fuel) : natDigitsAux fuel n ≠ [] := by
  cases fuel with
  | zero => omega
  | succ f =>
    simp only [natDigitsAux]
    by_cases h10 : n < 10
    · rw [if_pos h10]; simp
    · rw [if_neg h10]; simp

theorem natDigits_ne_nil (n : Nat) : natDigits n ≠ [] :=
  natDigitsAux_ne_nil (n + 1) n (by omega)

theorem natDigitsAux_all_digits :
    ∀ fuel n, n < fuel → ∀ c ∈ natDigitsAux fuel n, isDigitChar c = true := by
  intro fuel
  induction fuel with
  | zero => intro n h; omega
  | succ f ih =>
    intro n h c hc
    simp only [natDigitsAux] at hc
    by_cases h10 : n < 10
    · rw [if_pos h10, List.mem_singleton] at hc
      subst hc
      exact (digitChar_spec h10).1
    · rw [if_neg h10, List.mem_append] at hc
      rcases hc with hc | hc
      · have hlt : n / 10 < f := by
          have := Nat.div_lt_self (show 0 < n by omega) (show 1 < 10 by omega)
          omega
        exact ih (n / 10) hlt c hc
      · rw [List.mem_singleton] at hc
        subst hc
        exact (digitChar_spec (Nat.mod_lt n (by omega))).1

theorem natDigits_all_digits : ∀ n, ∀ c ∈ natDigits n, isDigitChar c = true :=
  fun n => natDigitsAux_all_digits (n + 1) n (by omega)

theorem digits_foldl (l : List Char) :
    ∀ a : Nat, l.foldl (fun x c => 10 * x + digitVal c) a = a * 10 ^ l.length + digitsValue l := by
  induction l with
  | nil => intro a; simp [digitsValue]
  | cons c t ih =>
    intro a
    have h1 : digitsValue (c :: t) = digitVal c * 10 ^ t.length + digitsValue t := by
      simp only [digitsValue, List.foldl_cons]
      rw [ih (10 * 0 + digitVal c), ih 0]
      ring
    simp only [List.foldl_cons, List.length_cons]
    rw [ih (10 * a + digitVal c), h1, pow_succ]
    ring

theorem digitsValue_natDigitsAux :
    ∀ fuel n, n < fuel → digitsValue (natDigitsAux fuel n) = n := by
  intro fuel
  induction fuel with
  | zero => intro n h; omega
  | succ f ih =>
    intro n h
    simp only [natDigitsAux]
    by_cases h10 : n < 10
    · rw [if_pos h10]
      simp only [digitsValue, List.foldl_cons, List.foldl_nil]
      rw [(digitChar_spec h10).2]
      omega
    · rw [if_neg h10]
      simp only [digitsValue, List.foldl_append, List.foldl_cons, List.foldl_nil]
      have hlt : n / 10 < f := by
        have := Nat.div_lt_self (show 0 < n by omega) (show 1 < 10 by omega)
        omega
      have h1 : List.foldl (fun x c => 10 * x + digitVal c) 0 (natDigitsAux f (n / 10))
          = n / 10 := ih (n / 10) hlt
      rw [h1, (digitChar_spec (Nat.mod_lt n (by omega))).2]
      omega

theorem digitsValue_natDigits : ∀ n, digitsValue (natDigits n) = n :=
  fun n => digitsValue_natDigitsAux (n + 1) n (by omega)

theorem digitsValue_zeros (k : Nat) :
    ∀ l, digitsValue (List.replicate k '0' ++ l) = digitsValue l := by
  induction k with
  | zero => intro l; rfl
  | succ k ih =>
    intro l
    simp only [List.replicate_succ, List.cons_append, digitsValue, List.foldl_cons]
    have h0 : 10 * 0 + digitVal '0' = 0 := by decide
    rw [h0]
    exact ih l

theorem digitsValue_pad3 (n : Nat) : digitsValue (pad3 (natDigits n)) = n := by
  unfold pad3
  rw [digitsValue_zeros, digitsValue_natDigits]

theorem pad3_all_digits (n : Nat) : ∀ c ∈ pad3 (natDigits n), isDigitChar c = true := by
  intro c hc
  unfold pad3 at hc
  rw [List.mem_append] at hc
  rcases hc with hc | hc
  · rw [List.eq_of_mem_replicate hc]; decide
  · exact natDigits_all_digits n c hc

theorem pad3_ne_nil (n : Nat) : pad3 (natDigits n) ≠ [] := by
  unfold pad3
  simp [natDigits_ne_nil n]

theorem takeWhile_all_stop {α : Type} {p : α → Bool} :
    ∀ (xs : List α) (y : α) (ys : List α), (∀ x ∈ xs, p x = true) → p y = false →
      List.takeWhile p (xs ++ y :: ys) = xs := by
  intro xs
  induction xs with
  | nil => intro y ys _ hy; simp [List.takeWhile_cons, hy]
  | cons x t ih =>
    intro y ys hall hy
    simp [List.cons_append, List.takeWhile_cons, hall x (List.mem_cons_self x t),
      ih y ys (fun z hz => hall z (List.mem_cons_of_mem x hz)) hy]

theorem findCaseId_fmt (n : Nat) : findCaseId (fmtCaseName n).data = some n := by
  have hdata : (fmtCaseName n).data =
      'c' :: 'a' :: 's' :: 'e' :: '_' :: (pad3 (natDigits n) ++ ".nii.gz".data) := rfl
  rw [hdata]
  have htw : (pad3 (natDigits n) ++ ".nii.gz".data).takeWhile isDigitChar
      = pad3 (natDigits n) := by
    have hd : ".nii.gz".data = '.' :: "nii.gz".data := rfl
    rw [hd]
    exact takeWhile_all_stop _ _ _ (pad3_all_digits n) (by decide)
  have hcase : caseIdAt ('c' :: 'a' :: 's' :: 'e' :: '_' ::
      (pad3 (natDigits n) ++ ".nii.gz".data)) = some n := by
    show (if ((pad3 (natDigits n) ++ ".nii.gz".data).takeWhile isDigitChar).isEmpty then none
          else some (digitsValue
            ((pad3 (natDigits n) ++ ".nii.gz".data).takeWhile isDigitChar))) = some n
    rw [htw]
    rw [if_neg (by simp [List.isEmpty_iff, pad3_ne_nil n])]
    rw [digitsValue_pad3]
  simp only [findCaseId, hcase]

theorem fmtCaseName_inj {m n : Nat} (h : fmtCaseName m = fmtCaseName n) : m = n := by
  have h1 := congrArg (fun s => findCaseId s.data) h
  simp only [findCaseId_fmt] at h1
  exact Option.some.inj h1

/-! ## Claim C8 -/

/-- Claim C8 counterexample: sanitize_name keeps 7-bit control
characters. On the one-character input with code point 1 the result is
that same character, which lies outside the printable range 0x20-0x7E,
refuting the claim that the output never contains characters outside
the printable 7-bit ASCII range. -/
theorem c8_counterexample :
    sanitize_name (String.mk [Char.ofNat 1]) = String.mk [Char.ofNat 1] ∧
    (∃ c ∈ (sanitize_name (String.mk [Char.ofNat 1])).data, isPrintableAscii c = false) := by
  decide

/-- Claim C8 (amended): for every input string, sanitize_name returns a
non-empty string whose characters all lie in the 7-bit range 0x00-0x7F
(not necessarily printable), and returns the fallback token
"Unknown_ID" exactly when the input reduces to nothing — or to the
token itself — after stripping non-ASCII characters and trimming
leading and trailing dashes, underscores, spaces and dots. -/
theorem c8_amended (s : String) :
    sanitize_name s ≠ "" ∧
    (∀ c ∈ (sanitize_name s).data, isAsciiChar c = true) ∧
    (sanitize_name s = "Unknown_ID" ↔
      stripEnds (stripNonAscii s) = "" ∨ stripEnds (stripNonAscii s) = "Unknown_ID") := by
  simp only [sanitize_name]
  by_cases h : stripEnds (stripNonAscii s) = ""
  · rw [if_pos h]
    exact ⟨by decide, by decide, by simp [h]⟩
  · rw [if_neg h]
    refine ⟨h, ?_, by simp [h]⟩
    intro c hc
    exact ascii_of_mem_stripNonAscii (mem_of_mem_stripEnds hc)

theorem c8_witness :
    sanitize_name "é日" ≠ "" ∧
    (∀ c ∈ (sanitize_name "é日").data, isAsciiChar c = true) ∧
    (sanitize_name "é日" = "Unknown_ID" ↔
      stripEnds (stripNonAscii "é日") = "" ∨ stripEnds (stripNonAscii "é日") = "Unknown_ID") :=
  c8_amended "é日"

/-! ## Claim C10 -/

/-- Claim C10: sanitize_name is not injective — the distinct
all-non-ASCII names map to the fallback token — and in stage 1 the two
distinct source files with all-non-ASCII stems get the same destination
name, so with overwrite off only the first is processed and the second
is skipped by the existence check (the first conversion having written
the destination). -/
theorem c10_sanitize_collision :
    sanitize_name "α" = "Unknown_ID" ∧ sanitize_name "β" = "Unknown_ID" ∧
    ("α" : String) ≠ "β" ∧
    step1CleanFile "α.dcm" = step1CleanFile "β.dcm" ∧
    ("α.dcm" : String) ≠ "β.dcm" ∧
    (step1Dir false [] ["α.dcm", "β.dcm"]).2 = ["α.dcm"] := by
  decide

/-! ## Claim C5 -/

/-- Claim C5: in stages 1 to 3 a unit is skipped exactly when the
overwrite flag is false, the destination exists, and the destination
meets the stage's completeness bar — bare existence for stage 1, the
output directory holding at least one .nii.gz for stage 2, and a target
size strictly above 1024 bytes for stage 3 — and each stage processes
exactly the units its gate does not skip. -/
theorem c5_stage_gates :
    (∀ ow e, step1Skips ow e = true ↔ (ow = false ∧ e = true)) ∧
    (∀ ow u, step2Skips ow u = true ↔
      (ow = false ∧ u.outDirExists = true ∧
        ∃ f ∈ u.outFiles, strEndsWith f ".nii.gz" = true)) ∧
    (∀ ow t, step3Skips ow t = true ↔ (ow = false ∧ ∃ sz, t = some sz ∧ 1024 < sz)) ∧
    (∀ ow disk f rest, step1Loop ow disk (f :: rest) =
      if step1Skips ow (disk.contains (step1CleanFile f)) then step1Loop ow disk rest
      else ((step1Loop ow (step1CleanFile f :: disk) rest).1,
            f :: (step1Loop ow (step1CleanFile f :: disk) rest).2)) ∧
    (∀ ow units, step2Run ow units =
      (units.filter (fun u => !(step2Skips ow u.2))).map (fun u => u.1)) ∧
    (∀ ow units, step3Run ow units =
      (units.filter (fun u => !(step3Skips ow u.2))).map (fun u => u.1)) := by
  refine ⟨by decide, ?_, ?_, ?_, fun _ _ => rfl, fun _ _ => rfl⟩
  · intro ow u
    simp [step2Skips, Bool.and_eq_true, Bool.not_eq_true', List.isEmpty_iff,
      List.filter_eq_nil_iff, and_assoc]
  · intro ow t
    cases t with
    | none => simp [step3Skips]
    | some sz => simp [step3Skips, Bool.and_eq_true, Bool.not_eq_true']
  · intro ow disk f rest
    rfl

theorem c5_witness :
    step1Skips false true = true ∧ step3Skips false (some 2000) = true :=
  ⟨(c5_stage_gates.1 false true).mpr ⟨rfl, rfl⟩,
   (c5_stage_gates.2.2.1 false (some 2000)).mpr ⟨rfl, 2000, rfl, by omega⟩⟩

/-! ## Claim C9 -/

/-- Claim C9 counterexample: stage 1 processes files in the order the
directory walk lists them, not in sorted order — with the walk listing
the two files in reverse code-point order, both are processed in that
reverse order, which the adjacent-pair check rejects while accepting
the sorted arrangement. -/
theorem c9_counterexample :
    (step1Dir false [] ["b.dcm", "a.dcm"]).2 = ["b.dcm", "a.dcm"] ∧
    chainLeB strLe ["b.dcm", "a.dcm"] = false ∧
    chainLeB strLe ["a.dcm", "b.dcm"] = true := by
  decide

/-- Claim C9 (amended): stages 3 and 4 do process their units in sorted
order of paths — the scan they share sorts its glob result — and the
persisted table is sorted by name; stages 1 and 2, however, process
their units in the order the directory walk yields them (stage 1's
processed list is a subsequence of the walked file list, stage 2
filters the walked unit list in place), which is not sorted in
general. -/
theorem c9_amended :
    (∀ globbed, chainLeB strLe (scanSorted globbed) = true) ∧
    (∀ globbed, (scanSorted globbed).Perm globbed) ∧
    (∀ mapping, chainLeB rowLe (persistRows mapping) = true) ∧
    (∀ ow disk files, ((step1Dir ow disk files).2).Sublist files) ∧
    (∀ ow units, step2Run ow units =
      (units.filter (fun u => !(step2Skips ow u.2))).map (fun u => u.1)) := by
  refine ⟨?_, ?_, ?_, ?_, fun _ _ => rfl⟩
  · intro globbed
    exact chainLeB_insSort (fun a b => strLe_of_not_strLe) globbed
  · intro globbed
    exact insSort_perm strLe globbed
  · intro mapping
    exact chainLeB_insSort rowLe_total mapping
  · intro ow disk files
    exact (step1Loop_sublist ow _ disk).trans (List.filter_sublist files)

theorem c9_witness :
    chainLeB strLe (scanSorted ["b.dcm", "a.dcm"]) = true ∧
    ((step1Dir false [] ["b.dcm", "a.dcm"]).2).Sublist ["b.dcm", "a.dcm"] :=
  ⟨c9_amended.1 ["b.dcm", "a.dcm"], c9_amended.2.2.2.1 false [] ["b.dcm", "a.dcm"]⟩

/-! ## Claim C7 -/

/-- Claim C7 counterexample: the table write is not atomic — the trace
opens and truncates the canonical path directly and never renames a
temporary onto it, so the write-to-temp-then-rename discipline fails at
this one-row mapping. -/
theorem c7_counterexample :
    atomicTempRenameB
      (persistTrace "name_mapping.csv" [⟨"case_001.nii.gz", "a", "A"⟩])
      "name_mapping.csv" = false ∧
    persistTrace "name_mapping.csv" [⟨"case_001.nii.gz", "a", "A"⟩] =
      [FsOp.openTrunc "name_mapping.csv",
       FsOp.writeRow "name_mapping.csv" headerRow,
       FsOp.writeRow "name_mapping.csv" ["case_001.nii.gz", "a", "A"]] := by
  decide

/-- Claim C7 (amended): the persisted table is written as a complete
replacement — the written rows are a permutation of the full mapping,
sorted by assigned name, preceded by the header — but directly to the
canonical path: the trace truncates the canonical file and writes into
it, with no temporary file and no rename, so an interruption mid-write
can leave a half-written table. -/
theorem c7_amended (csvPath : String) (mapping : List Row) :
    (persistRows mapping).Perm mapping ∧
    chainLeB rowLe (persistRows mapping) = true ∧
    persistTrace csvPath mapping =
      FsOp.openTrunc csvPath :: FsOp.writeRow csvPath headerRow ::
        (persistRows mapping).map
          (fun r => FsOp.writeRow csvPath [r.newName, r.relPath, r.fullPath]) ∧
    (∀ op ∈ persistTrace csvPath mapping, opDirectB op csvPath = true) := by
  refine ⟨insSort_perm rowLe mapping, chainLeB_insSort rowLe_total mapping, rfl, ?_⟩
  intro op hop
  simp only [persistTrace, List.mem_cons, List.mem_map] at hop
  rcases hop with rfl | rfl | ⟨r, _, rfl⟩ <;> simp [opDirectB]

theorem c7_witness :
    (persistRows [⟨"case_002.nii.gz", "b", "B"⟩, ⟨"case_001.nii.gz", "a", "A"⟩]).Perm
      [⟨"case_002.nii.gz", "b", "B"⟩, ⟨"case_001.nii.gz", "a", "A"⟩] ∧
    chainLeB rowLe
      (persistRows [⟨"case_002.nii.gz", "b", "B"⟩, ⟨"case_001.nii.gz", "a", "A"⟩]) = true :=
  ⟨(c7_amended "name_mapping.csv"
      [⟨"case_002.nii.gz", "b", "B"⟩, ⟨"case_001.nii.gz", "a", "A"⟩]).1,
   (c7_amended "name_mapping.csv"
      [⟨"case_002.nii.gz", "b", "B"⟩, ⟨"case_001.nii.gz", "a", "A"⟩]).2.1⟩

/-! ## Helper lemmas: the table load -/

theorem loadRows_snd_indep :
    ∀ (rows : List Row) em em' mx, (loadRows rows em mx).2 = (loadRows rows em' mx).2 := by
  intro rows
  induction rows with
  | nil => intros; rfl
  | cons r rest ih =>
    intro em em' mx
    simp only [loadRows]
    exact ih _ _ _

theorem loadRows_le :
    ∀ (rows : List Row) em mx, mx ≤ (loadRows rows em mx).2 := by
  intro rows
  induction rows with
  | nil => intro em mx; exact Nat.le_refl mx
  | cons r rest ih =>
    intro em mx
    simp only [loadRows]
    refine Nat.le_trans ?_ (ih _ _)
    cases hf : findCaseId r.newName.data with
    | none => exact Nat.le_refl mx
    | some n =>
      by_cases hn : n > mx
      · simp [hn]; omega
      · simp [hn]

theorem loadRows_max_le :
    ∀ (rows : List Row) em mx K,
      (∀ r ∈ rows, ∀ k, findCaseId r.newName.data = some k → k ≤ K) → mx ≤ K →
      (loadRows rows em mx).2 ≤ K := by
  intro rows
  induction rows with
  | nil => intro em mx K _ h2; exact h2
  | cons r rest ih =>
    intro em mx K h1 h2
    simp only [loadRows]
    refine ih _ _ K (fun s hs => h1 s (List.mem_cons_of_mem r hs)) ?_
    cases hf : findCaseId r.newName.data with
    | none => exact h2
    | some n =>
      have hn := h1 r (List.mem_cons_self r rest) n hf
      by_cases hgt : n > mx
      · simp [hgt]; omega
      · simp [hgt]; omega

theorem loadRows_mem_le :
    ∀ (rows : List Row) em mx r k, r ∈ rows → findCaseId r.newName.data = some k →
      k ≤ (loadRows rows em mx).2 := by
  intro rows
  induction rows with
  | nil => intro em mx r k hr; exact absurd hr (List.not_mem_nil r)
  | cons r0 rest ih =>
    intro em mx r k hr hk
    rcases List.mem_cons.mp hr with rfl | hr
    · simp only [loadRows, hk]
      refine Nat.le_trans ?_ (loadRows_le rest _ _)
      by_cases hgt : k > mx
      · simp [hgt]
      · simp [hgt]; omega
    · simp only [loadRows]
      exact ih _ _ r k hr hk

theorem loadRows_skip :
    ∀ (rows1 rows2 : List Row) (r : Row) em mx, findCaseId r.newName.data = none →
      (loadRows (rows1 ++ r :: rows2) em mx).2 = (loadRows (rows1 ++ rows2) em mx).2 := by
  intro rows1
  induction rows1 with
  | nil =>
    intro rows2 r em mx hf
    simp only [List.nil_append, loadRows, hf]
    exact loadRows_snd_indep rows2 _ _ mx
  | cons r0 rest ih =>
    intro rows2 r em mx hf
    simp only [List.cons_append, loadRows]
    exact ih rows2 r _ _ hf

theorem loadRows_em_isSome :
    ∀ (rows : List Row) em mx k, (em k).isSome = true →
      ((loadRows rows em mx).1 k).isSome = true := by
  intro rows
  induction rows with
  | nil => intro em mx k h; exact h
  | cons r rest ih =>
    intro em mx k h
    simp only [loadRows]
    refine ih _ _ k ?_
    unfold emUpdate
    by_cases hk : k = r.relPath
    · simp [hk]
    · simp [hk, h]

theorem loadRows_em_kept :
    ∀ (rows : List Row) em mx r, r ∈ rows →
      ∃ nm, (loadRows rows em mx).1 r.relPath = some nm := by
  intro rows
  induction rows with
  | nil => intro em mx r hr; exact absurd hr (List.not_mem_nil r)
  | cons r0 rest ih =>
    intro em mx r hr
    rcases List.mem_cons.mp hr with rfl | hr
    · simp only [loadRows]
      have h1 : ((emUpdate em r.relPath r.newName) r.relPath).isSome = true := by
        simp [emUpdate]
      exact Option.isSome_iff_exists.mp (loadRows_em_isSome rest _ _ r.relPath h1)
    · simp only [loadRows]
      exact ih _ _ r hr

theorem loadRows_em_not_mem :
    ∀ (rows : List Row) em mx k, (∀ r ∈ rows, r.relPath ≠ k) →
      (loadRows rows em mx).1 k = em k := by
  intro rows
  induction rows with
  | nil => intro em mx k _; rfl
  | cons r rest ih =>
    intro em mx k h
    simp only [loadRows]
    rw [ih _ _ k (fun s hs => h s (List.mem_cons_of_mem r hs))]
    unfold emUpdate
    rw [if_neg (fun he => (h r (List.mem_cons_self r rest)) he.symm)]

theorem loadRows_em_mem :
    ∀ (rows : List Row) em mx r, (rows.map Row.relPath).Nodup → r ∈ rows →
      (loadRows rows em mx).1 r.relPath = some r.newName := by
  intro rows
  induction rows with
  | nil => intro em mx r _ hr; exact absurd hr (List.not_mem_nil r)
  | cons r0 rest ih =>
    intro em mx r hnd hr
    simp only [List.map_cons, List.nodup_cons] at hnd
    rcases List.mem_cons.mp hr with rfl | hr
    · simp only [loadRows]
      have hne : ∀ s ∈ rest, s.relPath ≠ r.relPath := by
        intro s hs he
        exact hnd.1 (he ▸ List.mem_map_of_mem Row.relPath hs)
      rw [loadRows_em_not_mem rest _ _ r.relPath hne]
      simp [emUpdate]
    · simp only [loadRows]
      exact ih _ _ r hnd.2 hr

theorem loadRows_em_some :
    ∀ (rows : List Row) em mx k v, (loadRows rows em mx).1 k = some v →
      (∃ r ∈ rows, r.relPath = k ∧ r.newName = v) ∨ em k = some v := by
  intro rows
  induction rows with
  | nil => intro em mx k v h; exact Or.inr h
  | cons r rest ih =>
    intro em mx k v h
    simp only [loadRows] at h
    rcases ih _ _ k v h with ⟨s, hs, h1, h2⟩ | hup
    · exact Or.inl ⟨s, List.mem_cons_of_mem r hs, h1, h2⟩
    · unfold emUpdate at hup
      by_cases hk : k = r.relPath
      · rw [if_pos hk] at hup
        exact Or.inl ⟨r, List.mem_cons_self r rest, hk.symm, Option.some.inj hup⟩
      · rw [if_neg hk] at hup
        exact Or.inr hup

/-! ## Helper lemmas: reconciliation -/

theorem reconcile_relPaths (ow : Bool) (em : String → Option String) (dst : List String) :
    ∀ (items : List (String × String)) mx,
      ((reconcile ow em dst items mx).mapping).map Row.relPath = items.map Prod.snd := by
  intro items
  induction items with
  | nil => intro mx; rfl
  | cons p rest ih =>
    intro mx
    obtain ⟨img, rel⟩ := p
    cases hem : em rel with
    | some name => cases ow <;> simp [reconcile, hem, ih]
    | none => cases ow <;> simp [reconcile, hem, ih]

theorem reconcile_old_mem (em : String → Option String) (dst : List String) :
    ∀ (items : List (String × String)) mx img rel nm, em rel = some nm →
      (img, rel) ∈ items →
      (⟨nm, rel, img⟩ : Row) ∈ (reconcile false em dst items mx).mapping := by
  intro items
  induction items with
  | nil => intro mx img rel nm _ hmem; exact absurd hmem (List.not_mem_nil _)
  | cons p rest ih =>
    intro mx img rel nm hem hmem
    obtain ⟨pi, pr⟩ := p
    rcases List.mem_cons.mp hmem with heq | hmem2
    · cases heq
      simp [reconcile, hem]
    · cases hem2 : em pr with
      | some name2 =>
        simp only [reconcile, hem2, List.mem_cons]
        right
        exact ih mx img rel nm hem hmem2
      | none =>
        simp only [reconcile, List.mem_cons]
        rw [hem2]
        right
        exact ih (mx + 1) img rel nm hem hmem2

theorem reconcile_new_mem (em : String → Option String) (dst : List String) :
    ∀ (items : List (String × String)) mx img rel, em rel = none →
      (img, rel) ∈ items →
      ∃ j, mx < j ∧ (⟨fmtCaseName j, rel, img⟩ : Row) ∈ (reconcile false em dst items mx).mapping := by
  intro items
  induction items with
  | nil => intro mx img rel _ hmem; exact absurd hmem (List.not_mem_nil _)
  | cons p rest ih =>
    intro mx img rel hem hmem
    obtain ⟨pi, pr⟩ := p
    rcases List.mem_cons.mp hmem with heq | hmem2
    · cases heq
      refine ⟨mx + 1, Nat.lt_succ_self mx, ?_⟩
      simp [reconcile, hem]
    · cases hem2 : em pr with
      | some name2 =>
        rcases ih mx img rel hem hmem2 with ⟨j, hj, hm⟩
        refine ⟨j, hj, ?_⟩
        simp only [reconcile, hem2, List.mem_cons]
        right; exact hm
      | none =>
        rcases ih (mx + 1) img rel hem hmem2 with ⟨j, hj, hm⟩
        refine ⟨j, by omega, ?_⟩
        simp only [reconcile, List.mem_cons]
        rw [hem2]
        right; exact hm

theorem reconcile_classify (em : String → Option String) (dst : List String) :
    ∀ (items : List (String × String)) mx row,
      row ∈ (reconcile false em dst items mx).mapping →
      em row.relPath = some row.newName ∨
        (em row.relPath = none ∧ ∃ j, mx < j ∧ row.newName = fmtCaseName j) := by
  intro items
  induction items with
  | nil => intro mx row hm; exact absurd hm (List.not_mem_nil _)
  | cons p rest ih =>
    intro mx row hm
    obtain ⟨img, rel⟩ := p
    cases hem : em rel with
    | some name =>
      simp only [reconcile, hem, List.mem_cons] at hm
      rcases hm with rfl | hm
      · exact Or.inl hem
      · exact ih mx row hm
    | none =>
      simp only [reconcile, hem, List.mem_cons] at hm
      rcases hm with rfl | hm
      · exact Or.inr ⟨hem, mx + 1, Nat.lt_succ_self mx, rfl⟩
      · rcases ih (mx + 1) row hm with h | ⟨h1, j, hj, h2⟩
        · exact Or.inl h
        · exact Or.inr ⟨h1, j, by omega, h2⟩

theorem reconcile_names_nodup (em : String → Option String) (dst : List String) :
    ∀ (items : List (String × String)) mx,
      (items.map Prod.snd).Nodup →
      (∀ r r' nm, em r = some nm → em r' = some nm → r = r') →
      (∀ r nm, em r = some nm → ∃ i, i ≤ mx ∧ nm = fmtCaseName i) →
      (((reconcile false em dst items mx).mapping).map Row.newName).Nodup := by
  intro items
  induction items with
  | nil => intro mx _ _ _; simp [reconcile]
  | cons p rest ih =>
    intro mx hnd hinj hbound
    obtain ⟨img, rel⟩ := p
    simp only [List.map_cons, List.nodup_cons] at hnd
    cases hem : em rel with
    | some name =>
      simp only [reconcile, hem, List.map_cons, List.nodup_cons]
      constructor
      · intro hmem
        rcases List.mem_map.mp hmem with ⟨row, hrow, hname⟩
        rcases reconcile_classify em dst rest mx row hrow with hold | ⟨_, j, hj, hfmt⟩
        · have hrel : row.relPath = rel := hinj _ _ name (hname ▸ hold) hem
          have hmem2 : row.relPath ∈ (((reconcile false em dst rest mx).mapping).map Row.relPath) :=
            List.mem_map_of_mem Row.relPath hrow
          rw [reconcile_relPaths false em dst rest mx, hrel] at hmem2
          exact hnd.1 hmem2
        · rcases hbound rel name hem with ⟨i, hi, hif⟩
          have : i = j := fmtCaseName_inj (hif.symm.trans (hname ▸ hfmt))
          omega
      · exact ih mx hnd.2 hinj hbound
    | none =>
      simp only [reconcile, hem, List.map_cons, List.nodup_cons]
      constructor
      · intro hmem
        rcases List.mem_map.mp hmem with ⟨row, hrow, hname⟩
        rcases reconcile_classify em dst rest (mx + 1) row hrow with hold | ⟨_, j, hj, hfmt⟩
        · rcases hbound row.relPath row.newName hold with ⟨i, hi, hif⟩
          have : mx + 1 = i := fmtCaseName_inj (hname.symm.trans hif)
          omega
        · have : mx + 1 = j := fmtCaseName_inj (hname.symm.trans hfmt)
          omega
      · refine ih (mx + 1) hnd.2 hinj ?_
        intro r nm hr
        rcases hbound r nm hr with ⟨i, hi, hif⟩
        exact ⟨i, by omega, hif⟩

theorem reconcile_fresh (ow : Bool) (em : String → Option String) (dst : List String)
    (hem : ∀ k, em k = none) :
    ∀ (items : List (String × String)) mx,
      reconcile ow em dst items mx =
        ⟨freshMapping mx items,
         (freshMapping mx items).map (fun r => (r.fullPath, r.newName)),
         mx + items.length⟩ := by
  intro items
  induction items with
  | nil => intro mx; simp [reconcile, freshMapping]
  | cons p rest ih =>
    intro mx
    obtain ⟨img, rel⟩ := p
    cases ow <;> simp [reconcile, hem rel, freshMapping, ih (mx + 1)] <;> omega

/-! ## Helper lemmas: the fresh mapping -/

theorem freshMapping_relPaths :
    ∀ (items : List (String × String)) mx,
      (freshMapping mx items).map Row.relPath = items.map Prod.snd := by
  intro items
  induction items with
  | nil => intro mx; rfl
  | cons p rest ih =>
    intro mx
    obtain ⟨img, rel⟩ := p
    simp [freshMapping, ih (mx + 1)]

theorem freshMapping_mem :
    ∀ (items : List (String × String)) mx row, row ∈ freshMapping mx items →
      ∃ j, mx < j ∧ j ≤ mx + items.length ∧ row.newName = fmtCaseName j := by
  intro items
  induction items with
  | nil => intro mx row hm; exact absurd hm (List.not_mem_nil _)
  | cons p rest ih =>
    intro mx row hm
    obtain ⟨img, rel⟩ := p
    simp only [freshMapping, List.mem_cons] at hm
    rcases hm with rfl | hm
    · exact ⟨mx + 1, Nat.lt_succ_self mx, by simp, rfl⟩
    · rcases ih (mx + 1) row hm with ⟨j, h1, h2, h3⟩
      exact ⟨j, by omega, by simp only [List.length_cons]; omega, h3⟩

theorem freshMapping_names_nodup :
    ∀ (items : List (String × String)) mx,
      ((freshMapping mx items).map Row.newName).Nodup := by
  intro items
  induction items with
  | nil => intro mx; simp [freshMapping]
  | cons p rest ih =>
    intro mx
    obtain ⟨img, rel⟩ := p
    simp only [freshMapping, List.map_cons, List.nodup_cons]
    refine ⟨?_, ih (mx + 1)⟩
    intro hmem
    rcases List.mem_map.mp hmem with ⟨row, hrow, hname⟩
    rcases freshMapping_mem rest (mx + 1) row hrow with ⟨j, h1, _, h3⟩
    have : j = mx + 1 := fmtCaseName_inj (h3.symm.trans hname)
    omega

theorem freshMapping_top :
    ∀ (items : List (String × String)) mx, items ≠ [] →
      ∃ row ∈ freshMapping mx items, row.newName = fmtCaseName (mx + items.length) := by
  intro items
  induction items with
  | nil => intro mx h; exact absurd rfl h
  | cons p rest ih =>
    intro mx _
    obtain ⟨img, rel⟩ := p
    by_cases hr : rest = []
    · subst hr
      exact ⟨⟨fmtCaseName (mx + 1), rel, img⟩, List.mem_cons_self _ _, rfl⟩
    · rcases ih (mx + 1) hr with ⟨row, hrow, hname⟩
      refine ⟨row, List.mem_cons_of_mem _ hrow, ?_⟩
      rw [hname]
      congr 1
      simp only [List.length_cons]
      omega

/-! ## Helper lemmas: a rerun over known items -/

theorem relNamesFrom_of_em (em : String → Option String) :
    ∀ (items : List (String × String)) n,
      (∀ row ∈ freshMapping n items, em row.relPath = some row.newName) →
      relNamesFrom em n items := by
  intro items
  induction items with
  | nil => intro n _; trivial
  | cons p rest ih =>
    intro n h
    obtain ⟨img, rel⟩ := p
    refine ⟨h ⟨fmtCaseName (n + 1), rel, img⟩ (List.mem_cons_self _ _), ?_⟩
    exact ih (n + 1) (fun row hrow => h row (List.mem_cons_of_mem _ hrow))

theorem reconcile_all_known (em : String → Option String) (dst : List String) :
    ∀ (items : List (String × String)) n mx,
      relNamesFrom em n items →
      (∀ row ∈ freshMapping n items, dst.contains row.newName = true) →
      reconcile false em dst items mx = ⟨freshMapping n items, [], mx⟩ := by
  intro items
  induction items with
  | nil => intro n mx _ _; rfl
  | cons p rest ih =>
    intro n mx hrel hdst
    obtain ⟨img, rel⟩ := p
    obtain ⟨hhead, htail⟩ := hrel
    have hd : dst.contains (fmtCaseName (n + 1)) = true :=
      hdst ⟨fmtCaseName (n + 1), rel, img⟩ (List.mem_cons_self _ _)
    have hrest := ih (n + 1) mx htail (fun row hrow => hdst row (List.mem_cons_of_mem _ hrow))
    have hd' : fmtCaseName (n + 1) ∈ dst := by simpa using hd
    simp [reconcile, hhead, hd, hd', hrest, freshMapping]

theorem step4Run_none (dst : List String) (items : List (String × String)) :
    step4Run false none dst items =
      ⟨freshMapping 0 items,
       (freshMapping 0 items).map (fun r => (r.fullPath, r.newName)),
       items.length⟩ := by
  simp only [step4Run, loadRegistry]
  have h := reconcile_fresh false (fun _ => none) dst (fun _ => rfl) items 0
  simpa using h

theorem loadRegistry_some (rows : List Row) :
    loadRegistry false (some rows) = loadRows rows (fun _ => none) 0 := rfl

theorem reload_table (items : List (String × String))
    (hnd : (items.map Prod.snd).Nodup) :
    (∀ row ∈ freshMapping 0 items,
      (loadRows (persistRows (freshMapping 0 items)) (fun _ => none) 0).1 row.relPath
        = some row.newName) ∧
    (∀ rel, rel ∉ items.map Prod.snd →
      (loadRows (persistRows (freshMapping 0 items)) (fun _ => none) 0).1 rel = none) ∧
    (∀ r nm,
      (loadRows (persistRows (freshMapping 0 items)) (fun _ => none) 0).1 r = some nm →
      ∃ row ∈ freshMapping 0 items, row.relPath = r ∧ row.newName = nm) ∧
    (loadRows (persistRows (freshMapping 0 items)) (fun _ => none) 0).2 = items.length := by
  have hperm : (persistRows (freshMapping 0 items)).Perm (freshMapping 0 items) :=
    insSort_perm rowLe (freshMapping 0 items)
  have hrelsT : ((persistRows (freshMapping 0 items)).map Row.relPath).Nodup := by
    refine ((hperm.map Row.relPath).nodup_iff).mpr ?_
    rw [freshMapping_relPaths items 0]
    exact hnd
  refine ⟨?_, ?_, ?_, ?_⟩
  · intro row hrow
    exact loadRows_em_mem _ _ _ row hrelsT (hperm.mem_iff.mpr hrow)
  · intro rel hrel
    have hne : ∀ r ∈ persistRows (freshMapping 0 items), r.relPath ≠ rel := by
      intro r hr he
      apply hrel
      rw [← freshMapping_relPaths items 0, ← he]
      exact List.mem_map_of_mem Row.relPath (hperm.mem_iff.mp hr)
    exact loadRows_em_not_mem _ _ _ rel hne
  · intro r nm h
    rcases loadRows_em_some _ _ _ r nm h with ⟨row, hrow, h1, h2⟩ | hbase
    · exact ⟨row, hperm.mem_iff.mp hrow, h1, h2⟩
    · exact absurd hbase (by simp)
  · have hupper : (loadRows (persistRows (freshMapping 0 items)) (fun _ => none) 0).2
        ≤ items.length := by
      refine loadRows_max_le _ _ _ items.length ?_ (Nat.zero_le _)
      intro r hr j hj
      rcases freshMapping_mem items 0 r (hperm.mem_iff.mp hr) with ⟨i, _, hile, hname⟩
      rw [hname, findCaseId_fmt] at hj
      have : i = j := Option.some.inj hj
      omega
    by_cases hit : items = []
    · subst hit
      simpa using hupper
    · have hlower : items.length ≤
          (loadRows (persistRows (freshMapping 0 items)) (fun _ => none) 0).2 := by
        rcases freshMapping_top items 0 hit with ⟨row, hrow, hname⟩
        refine loadRows_mem_le _ _ _ row items.length (hperm.mem_iff.mpr hrow) ?_
        rw [hname]
        simpa using findCaseId_fmt items.length
      omega

/-! ## Claim C1 -/

/-- Claim C1 counterexample: a loaded registry row whose relative path
is not among the scanned items is dropped from the written table. With
one persisted row for the vanished path and an empty scan, the loaded
map still knows the path, yet the final mapping — and hence the
rewritten table — is empty. -/
theorem c1_counterexample :
    (loadRegistry false (some [⟨"case_001.nii.gz", "gone", "G"⟩])).1 "gone"
        = some "case_001.nii.gz" ∧
    (loadRegistry false (some [⟨"case_001.nii.gz", "gone", "G"⟩])).2 = 1 ∧
    (step4Run false (some [⟨"case_001.nii.gz", "gone", "G"⟩]) [] []).mapping = [] ∧
    persistRows (step4Run false (some [⟨"case_001.nii.gz", "gone", "G"⟩]) [] []).mapping
        = [] := by
  refine ⟨by decide, by decide, rfl, rfl⟩

/-- Claim C1 (amended): the registry is a live inventory, not a
superset ledger — the mapping written at the end of the run lists
exactly the relative paths of the items discovered by the current scan,
in scan order, so a loaded entry whose source is gone is dropped;
loaded entries only contribute reusable names and the starting maximum
identifier. -/
theorem c1_amended (ow : Bool) (table : Option (List Row)) (dst : List String)
    (items : List (String × String)) :
    ((step4Run ow table dst items).mapping).map Row.relPath = items.map Prod.snd := by
  simp only [step4Run]
  exact reconcile_relPaths ow _ dst items _

theorem c1_witness :
    ((step4Run false (some [⟨"case_001.nii.gz", "gone", "G"⟩]) [] [("c/a", "a")]).mapping).map
      Row.relPath = [("c/a", "a")].map Prod.snd :=
  c1_amended false (some [⟨"case_001.nii.gz", "gone", "G"⟩]) [] [("c/a", "a")]

/-! ## Claim C4 -/

/-- Claim C4: with overwrite off, a scanned item whose relative path is
already in the loaded map keeps its assigned name: it is queued for
reprocessing under that original name exactly when the output file of
that name is missing from the destination, no new identifier is
allocated for it, and the running maximum is untouched by it; when the
output exists the item is neither queued nor renamed. -/
theorem c4_recovery (em : String → Option String) (dst : List String) (img rel : String)
    (rest : List (String × String)) (mx : Nat) (name : String)
    (h : em rel = some name) :
    reconcile false em dst ((img, rel) :: rest) mx =
      ⟨⟨name, rel, img⟩ :: (reconcile false em dst rest mx).mapping,
       (if dst.contains name then [] else [(img, name)])
         ++ (reconcile false em dst rest mx).toProcess,
       (reconcile false em dst rest mx).maxId⟩ ∧
    (dst.contains name = false →
      (reconcile false em dst ((img, rel) :: rest) mx).toProcess =
        (img, name) :: (reconcile false em dst rest mx).toProcess) ∧
    (dst.contains name = true →
      (reconcile false em dst ((img, rel) :: rest) mx).toProcess =
        (reconcile false em dst rest mx).toProcess) ∧
    (reconcile false em dst ((img, rel) :: rest) mx).maxId =
      (reconcile false em dst rest mx).maxId := by
  refine ⟨by simp [reconcile, h], ?_, ?_, by simp [reconcile, h]⟩
  · intro hc
    have hc' : name ∉ dst := by simpa using hc
    simp [reconcile, h, hc']
  · intro hc
    have hc' : name ∈ dst := by simpa using hc
    simp [reconcile, h, hc']

theorem c4_witness :
    (reconcile false (fun x => if x = "a" then some "case_007.nii.gz" else none)
      [] [("c/a", "a")] 9).toProcess = [("c/a", "case_007.nii.gz")] ∧
    (reconcile false (fun x => if x = "a" then some "case_007.nii.gz" else none)
      [] [("c/a", "a")] 9).maxId = 9 ∧
    (reconcile false (fun x => if x = "a" then some "case_007.nii.gz" else none)
      ["case_007.nii.gz"] [("c/a", "a")] 9).toProcess = [] := by
  have h1 := c4_recovery (fun x => if x = "a" then some "case_007.nii.gz" else none)
    [] "c/a" "a" [] 9 "case_007.nii.gz" (by decide)
  have h2 := c4_recovery (fun x => if x = "a" then some "case_007.nii.gz" else none)
    ["case_007.nii.gz"] "c/a" "a" [] 9 "case_007.nii.gz" (by decide)
  refine ⟨?_, ?_, ?_⟩
  · rw [h1.2.1 (by decide)]; rfl
  · rw [h1.2.2.2]; rfl
  · rw [h2.2.2.1 (by decide)]; rfl

/-! ## Claim C6 -/

/-- Claim C6: loading the registry never aborts the run — a loaded row
whose assigned name yields nothing to the identifier search is still
kept in the map but contributes nothing to the running maximum, an
absent or unreadable table degrades to the empty map with maximum 0,
and a run from the empty map allocates a fresh identifier to every
scanned item. -/
theorem c6_defensive_load :
    (∀ ow, loadRegistry ow none = (fun _ => none, 0)) ∧
    (∀ (rows : List Row) em mx r, r ∈ rows →
      ∃ nm, (loadRows rows em mx).1 r.relPath = some nm) ∧
    (∀ (rows1 rows2 : List Row) (r : Row) em mx, findCaseId r.newName.data = none →
      (loadRows (rows1 ++ r :: rows2) em mx).2 = (loadRows (rows1 ++ rows2) em mx).2) ∧
    (∀ dst items, step4Run false none dst items =
      ⟨freshMapping 0 items,
       (freshMapping 0 items).map (fun r => (r.fullPath, r.newName)),
       items.length⟩) := by
  exact ⟨fun ow => by cases ow <;> rfl,
         fun rows em mx r hr => loadRows_em_kept rows em mx r hr,
         fun rows1 rows2 r em mx hf => loadRows_skip rows1 rows2 r em mx hf,
         fun dst items => step4Run_none dst items⟩

theorem c6_witness :
    (∃ nm, (loadRows [⟨"garbage", "p", "F"⟩] (fun _ => none) 0).1 "p" = some nm) ∧
    (loadRows ([] ++ ⟨"garbage", "p", "F"⟩ :: []) (fun _ => none) 0).2
      = (loadRows ([] ++ []) (fun _ => none) 0).2 := by
  constructor
  · exact c6_defensive_load.2.1 [⟨"garbage", "p", "F"⟩] (fun _ => none) 0
      ⟨"garbage", "p", "F"⟩ (List.mem_singleton.mpr rfl)
  · exact c6_defensive_load.2.2.1 [] [] ⟨"garbage", "p", "F"⟩ (fun _ => none) 0 (by decide)

/-! ## Claim C2 -/

/-- Claim C2: an item whose relative path is absent from the loaded map
is allocated identifier maxIdentifierSeen + 1 and the maximum advances;
consequently, re-running after adding unrelated new items keeps every
previously assigned relative path on its old name, gives every new path
an identifier strictly above the previous maximum, and produces no
duplicate assigned names. -/
theorem c2_identifier_stability (items1 items2 : List (String × String))
    (dst1 dst2 : List String)
    (h1 : (items1.map Prod.snd).Nodup) (h2 : (items2.map Prod.snd).Nodup) :
    (∀ (em : String → Option String) dst img rel rest mx, em rel = none →
      reconcile false em dst ((img, rel) :: rest) mx =
        ⟨⟨fmtCaseName (mx + 1), rel, img⟩ :: (reconcile false em dst rest (mx + 1)).mapping,
         (img, fmtCaseName (mx + 1)) :: (reconcile false em dst rest (mx + 1)).toProcess,
         (reconcile false em dst rest (mx + 1)).maxId⟩) ∧
    (∀ nm rel img img2,
      (⟨nm, rel, img⟩ : Row) ∈ (step4Run false none dst1 items1).mapping →
      (img2, rel) ∈ items2 →
      (⟨nm, rel, img2⟩ : Row) ∈
        (step4Run false (some (persistRows (step4Run false none dst1 items1).mapping))
          dst2 items2).mapping) ∧
    (∀ img2 rel, (img2, rel) ∈ items2 → rel ∉ items1.map Prod.snd →
      ∃ j, (step4Run false none dst1 items1).maxId < j ∧
        (⟨fmtCaseName j, rel, img2⟩ : Row) ∈
          (step4Run false (some (persistRows (step4Run false none dst1 items1).mapping))
            dst2 items2).mapping) ∧
    (((step4Run false (some (persistRows (step4Run false none dst1 items1).mapping))
        dst2 items2).mapping).map Row.newName).Nodup := by
  have hrun1 := step4Run_none dst1 items1
  have hrel := reload_table items1 h1
  have hrun2 : step4Run false (some (persistRows (step4Run false none dst1 items1).mapping))
      dst2 items2 =
      reconcile false
        (loadRows (persistRows (freshMapping 0 items1)) (fun _ => none) 0).1 dst2 items2
        (loadRows (persistRows (freshMapping 0 items1)) (fun _ => none) 0).2 := by
    rw [hrun1]
    rfl
  refine ⟨?_, ?_, ?_, ?_⟩
  · intro em dst img rel rest mx hem
    simp [reconcile, hem]
  · intro nm rel img img2 hm1 hm2
    rw [hrun1] at hm1
    rw [hrun2]
    have hname := hrel.1 ⟨nm, rel, img⟩ hm1
    exact reconcile_old_mem _ dst2 items2 _ img2 rel nm hname hm2
  · intro img2 rel hm2 hnot
    rw [hrun2]
    have hnone := hrel.2.1 rel hnot
    rcases reconcile_new_mem _ dst2 items2 _ img2 rel hnone hm2 with ⟨j, hj, hm⟩
    refine ⟨j, ?_, hm⟩
    rw [hrel.2.2.2] at hj
    rw [hrun1]
    exact hj
  · rw [hrun2]
    refine reconcile_names_nodup _ dst2 items2 _ h2 ?_ ?_
    · intro r r2 nm hr hr2
      rcases hrel.2.2.1 r nm hr with ⟨row, hrow, ha1, ha2⟩
      rcases hrel.2.2.1 r2 nm hr2 with ⟨row2, hrow2, hb1, hb2⟩
      have hinj := List.inj_on_of_nodup_map (freshMapping_names_nodup items1 0)
      have heq : row = row2 := hinj hrow hrow2 (by rw [ha2, hb2])
      rw [← ha1, ← hb1, heq]
    · intro r nm hr
      rcases hrel.2.2.1 r nm hr with ⟨row, hrow, _, ha2⟩
      rcases freshMapping_mem items1 0 row hrow with ⟨i, _, hile, hname⟩
      refine ⟨i, ?_, by rw [← ha2]; exact hname⟩
      rw [hrel.2.2.2]
      omega

theorem c2_witness :
    (⟨"case_001.nii.gz", "a", "c/a"⟩ : Row) ∈
      (step4Run false
        (some (persistRows (step4Run false none [] [("c/a", "a"), ("c/b", "b")]).mapping))
        [] [("c/a", "a"), ("c/b", "b"), ("c/n", "n")]).mapping ∧
    (∃ j, (step4Run false none [] [("c/a", "a"), ("c/b", "b")]).maxId < j ∧
      (⟨fmtCaseName j, "n", "c/n"⟩ : Row) ∈
        (step4Run false
          (some (persistRows (step4Run false none [] [("c/a", "a"), ("c/b", "b")]).mapping))
          [] [("c/a", "a"), ("c/b", "b"), ("c/n", "n")]).mapping) ∧
    (((step4Run false
        (some (persistRows (step4Run false none [] [("c/a", "a"), ("c/b", "b")]).mapping))
        [] [("c/a", "a"), ("c/b", "b"), ("c/n", "n")]).mapping).map Row.newName).Nodup := by
  have h := c2_identifier_stability [("c/a", "a"), ("c/b", "b")]
    [("c/a", "a"), ("c/b", "b"), ("c/n", "n")] [] [] (by decide) (by decide)
  exact ⟨h.2.1 "case_001.nii.gz" "a" "c/a" "c/a" (by decide) (by decide),
         h.2.2.1 "c/n" "n" (by decide) (by decide),
         h.2.2.2⟩

/-! ## Claim C3 -/

theorem step1Loop_all_skip :
    ∀ (fs disk : List String), (∀ f ∈ fs, disk.contains (step1CleanFile f) = true) →
      (step1Loop false disk fs).2 = [] := by
  intro fs
  induction fs with
  | nil => intro disk _; rfl
  | cons f rest ih =>
    intro disk h
    have hg : step1Skips false (disk.contains (step1CleanFile f)) = true := by
      unfold step1Skips
      rw [Bool.not_false, Bool.true_and]
      exact h f (List.mem_cons_self f rest)
    simp only [step1Loop, hg, if_pos rfl]
    exact ih disk (fun g hg2 => h g (List.mem_cons_of_mem f hg2))

/-- Claim C3: a second full run with no source changes, overwrite off,
and all first-run outputs intact processes nothing — stage 1 skips
every file whose destination exists, stage 2 every directory whose
output holds a .nii.gz, stage 3 every file whose target exceeds 1024
bytes, stage 4 queues nothing — and the table written by the second run
equals the first run's table. -/
theorem c3_idempotent_rerun
    (files1 disk1 : List String)
    (units2 : List (String × Dir2)) (units3 : List (String × Option Nat))
    (items : List (String × String)) (dst1 dst2 : List String)
    (h1 : ∀ f ∈ files1.filter isDcmFile, disk1.contains (step1CleanFile f) = true)
    (h2 : ∀ u ∈ units2, u.2.outDirExists = true ∧
      ∃ f ∈ u.2.outFiles, strEndsWith f ".nii.gz" = true)
    (h3 : ∀ u ∈ units3, ∃ sz, u.2 = some sz ∧ 1024 < sz)
    (h4 : (items.map Prod.snd).Nodup)
    (h5 : ∀ row ∈ (step4Run false none dst1 items).mapping,
      dst2.contains row.newName = true) :
    (step1Dir false disk1 files1).2 = [] ∧
    step2Run false units2 = [] ∧
    step3Run false units3 = [] ∧
    (step4Run false (some (persistRows (step4Run false none dst1 items).mapping))
      dst2 items).toProcess = [] ∧
    persistRows (step4Run false (some (persistRows (step4Run false none dst1 items).mapping))
      dst2 items).mapping = persistRows (step4Run false none dst1 items).mapping := by
  have hrun1 := step4Run_none dst1 items
  have hrel := reload_table items h4
  have hF : ∀ row ∈ freshMapping 0 items, dst2.contains row.newName = true := by
    intro row hrow
    apply h5
    rw [hrun1]
    exact hrow
  have hnames := relNamesFrom_of_em _ items 0 hrel.1
  have hrun2 : step4Run false (some (persistRows (step4Run false none dst1 items).mapping))
      dst2 items =
      ⟨freshMapping 0 items, [],
       (loadRows (persistRows (freshMapping 0 items)) (fun _ => none) 0).2⟩ := by
    rw [hrun1]
    exact reconcile_all_known _ dst2 items 0 _ hnames hF
  refine ⟨?_, ?_, ?_, ?_, ?_⟩
  · exact step1Loop_all_skip (files1.filter isDcmFile) disk1 h1
  · have hall : ∀ u ∈ units2, (!(step2Skips false u.2)) = false := by
      intro u hu
      obtain ⟨he, f, hf, hsuf⟩ := h2 u hu
      have hne : u.2.outFiles.filter (fun g => strEndsWith g ".nii.gz") ≠ [] := by
        intro hnil
        have hmem : f ∈ u.2.outFiles.filter (fun g => strEndsWith g ".nii.gz") :=
          List.mem_filter.mpr ⟨hf, hsuf⟩
        rw [hnil] at hmem
        exact absurd hmem (List.not_mem_nil f)
      have hE : (u.2.outFiles.filter (fun g => strEndsWith g ".nii.gz")).isEmpty = false := by
        cases hE : (u.2.outFiles.filter (fun g => strEndsWith g ".nii.gz")).isEmpty with
        | false => rfl
        | true => exact absurd (List.isEmpty_iff.mp hE) hne
      simp [step2Skips, he, hE]
    have hfil : units2.filter (fun u => !(step2Skips false u.2)) = [] := by
      rw [List.filter_eq_nil_iff]
      intro u hu
      rw [hall u hu]
      simp
    simp [step2Run, hfil]
  · have hfil : units3.filter (fun u => !(step3Skips false u.2)) = [] := by
      rw [List.filter_eq_nil_iff]
      intro u hu
      rcases h3 u hu with ⟨sz, heq, hsz⟩
      simp [step3Skips, heq, hsz]
    simp [step3Run, hfil]
  · rw [hrun2]
  · rw [hrun2, hrun1]

theorem c3_witness :
    (step1Dir false ["a.dcm"] ["a.dcm"]).2 = [] ∧
    step2Run false [("d", ⟨true, ["x.nii.gz"]⟩)] = [] ∧
    step3Run false [("p", some 2000)] = [] ∧
    (step4Run false (some (persistRows (step4Run false none [] [("c/a", "a")]).mapping))
      ["case_001.nii.gz"] [("c/a", "a")]).toProcess = [] ∧
    persistRows (step4Run false
      (some (persistRows (step4Run false none [] [("c/a", "a")]).mapping))
      ["case_001.nii.gz"] [("c/a", "a")]).mapping
      = persistRows (step4Run false none [] [("c/a", "a")]).mapping :=
  c3_idempotent_rerun ["a.dcm"] ["a.dcm"] [("d", ⟨true, ["x.nii.gz"]⟩)] [("p", some 2000)]
    [("c/a", "a")] [] ["case_001.nii.gz"]
    (by decide) (by decide)
    (fun u hu => by
      rw [List.mem_singleton] at hu
      subst hu
      exact ⟨2000, rfl, by omega⟩)
    (by decide) (by decide)

end DocmNifti
